import Mathlib

/-!
Verification of the printipi event-coordination core: the Event time/ordering
primitive (code/firmware/src/event.cpp) and the IODrivers heterogeneous device
container (src/iodrivers/iodrivers.h) with its iterator, predicate algebra,
fold/any/all combinators and the peekNextEvent / onIdleCpu scheduling protocol.

Modelling conventions:
- Clock time points and durations (EventClockT) are Int ticks.
- The heterogeneous device tuple is a List of Device records; a Device record
  carries the (side-effect-free) results of each capability the container
  queries: the boolean capability flags, the peeked next event, and the
  onIdleCpu answer as a function of the interval argument.
- An iterator cursor is its index (the tuple pointer is shared, so equality of
  iteratorbase values reduces to index equality).
- Predicates over the device set are functions Nat -> Bool over indices,
  matching how Union / the capability predicates evaluate the cursor.
- Loops are embedded with explicit fuel bounded by the container size, so all
  definitions compute by kernel reduction; the fuel provably never runs out on
  the loops' reachable domain.
-/

namespace Printipi

/-- StepDirection enum from the firmware: forward or backward step. -/
inductive StepDirection where
  | StepForward : StepDirection
  | StepBackward : StepDirection
deriving DecidableEq, Repr

/-- Modelled from the spec: the reserved sentinel device index NULL_STEPPER_ID
(declared in event.h, which is not under src/); a null event is identified
solely by its device index equalling this sentinel. AxisIdType is a small
unsigned id; the sentinel's concrete numeral does not affect any claim. -/
def NULL_STEPPER_ID : Nat := 255

/-- Event from event.cpp: device index, direction flag and absolute scheduled
time (EventClockT::time_point, modelled as Int ticks). Field names follow the
source members. -/
structure Event where
  mTime : Int
  mStepperNum : Nat
  mIsForward : Bool
deriving DecidableEq, Repr

/-- Event::Event(t, stepperNum, dir): stores t and stepperNum and sets
the forward flag to (dir == StepForward). -/
def Event.mkEvent (t : Int) (stepperNum : Nat) (dir : StepDirection) : Event :=
  ⟨t, stepperNum, dir = StepDirection.StepForward⟩

/-- Event::stepperId(). -/
def Event.stepperId (e : Event) : Nat := e.mStepperNum

/-- Event::direction(): StepForward if the forward flag is set else
StepBackward. -/
def Event.direction (e : Event) : StepDirection :=
  if e.mIsForward then StepDirection.StepForward else StepDirection.StepBackward

/-- Event::time(). -/
def Event.time (e : Event) : Int := e.mTime

/-- Event::isNull(): stepperId equals the null sentinel. -/
def Event.isNull (e : Event) : Bool := e.stepperId == NULL_STEPPER_ID

/-- Modelled from the spec: the default-constructed OutputEvent() used as the
fold seed in IODrivers::peekNextEvent (outputevent.h is not under src/). Per
the spec a null event is identified solely by the sentinel device index; its
time and direction are unspecified, so they are fixed arbitrarily here. -/
def Event.nullEvent : Event := ⟨0, NULL_STEPPER_ID, true⟩

/-- Event::offset(duration): adds the (signed) duration to the scheduled
time; the other members are untouched. The C++ mutates in place; the model
returns the updated value. -/
def Event.offset (e : Event) (offs : Int) : Event :=
  { e with mTime := e.mTime + offs }

/-- Event::operator< : compares the two scheduled times only. -/
def Event.lt (e other : Event) : Bool := decide (e.time < other.time)

/-- Event::operator> : compares the two scheduled times only. -/
def Event.gt (e other : Event) : Bool := decide (e.time > other.time)

/-- Modelled from the spec: OnIdleCpuIntervalT (not under src/) is the
available idle interval passed through to each handler; its structure never
matters to the container, so it is modelled as Nat. -/
abbrev OnIdleCpuIntervalT := Nat

/-- One device slot of the heterogeneous tuple, characterised by the results
of the side-effect-free capability calls the container makes on it: the
boolean capability queries, the peeked pending event (peeking is
side-effect-free and idempotent, so a single Event value suffices), and the
onIdleCpu answer as a function of the interval. -/
structure Device where
  isFan : Bool
  isHotend : Bool
  isHeatedBed : Bool
  isServo : Bool
  isEndstop : Bool
  isEndstopTriggered : Bool
  peekNextEvent : Event
  onIdleCpu : OnIdleCpuIntervalT → Bool

/-- A device with no capabilities and nothing pending; used only as the
List.getD fallback at indices that are always proved in range. -/
def defDevice : Device :=
  ⟨false, false, false, false, false, false, Event.nullEvent, fun _ => false⟩

/-- Device at index i of the tuple (every use is at a proved-in-range index). -/
def devAt (ds : List Device) (i : Nat) : Device := ds.getD i defDevice

/-- The peeked event of the device at index i. -/
def peekAt (ds : List Device) (i : Nat) : Event := (devAt ds i).peekNextEvent

/-- A capability query predicate such as GenericIsFan, applied to the cursor
at index i: it calls the queried capability of the device at that index.
Modelled from the spec at the out-of-range sentinel index (tupleCallOnIndex
of common/tupleutil.h is not under src/): there it yields false. The value at
the sentinel is irrelevant to iteration on a non-empty container - the
increment loop stops at the sentinel whatever the predicate says there - and
on the empty container the spec's empty-view clauses apply. -/
def predAt (ds : List Device) (q : Device → Bool) (i : Nat) : Bool :=
  match ds[i]? with
  | some d => q d
  | none => false

/-- The NoPredicate filter: always true. -/
def NoPredicate : Nat → Bool := fun _ => true

/-- The Union<PredA, PredB> filter: true for every item passing PredA OR
PredB. -/
def unionPred (A B : Nat → Bool) : Nat → Bool := fun i => A i || B i

/-- The Intersection<PredA, PredB> filter: true for every item passing PredA
AND PredB. -/
def interPred (A B : Nat → Bool) : Nat → Bool := fun i => A i && B i

/-!
Iterator model. iterator<Predicate>::operator++ runs
  do { assert(!isAtEnd()); ++idx; } while (!Predicate(*this) && !isAtEnd());
so from a non-end cursor it moves to the first index j > idx with P j = true,
stopping at the end sentinel regardless of the predicate there; the assert can
fire only on entry (the loop condition re-establishes !isAtEnd before every
later pass). iterScanFuel embeds the post-increment scan loop; fuel = size is
enough for every entry index, since each pass increases idx and the scan stops
as soon as size <= idx.
-/

/-- The scan loop of operator++ after an increment has been applied: keep
incrementing while the predicate rejects the index and the end sentinel is not
reached. Stops immediately once size <= idx. -/
def iterScanFuel (P : Nat → Bool) (size : Nat) : Nat → Nat → Nat
  | 0, idx => idx
  | fuel + 1, idx =>
    if size ≤ idx then idx
    else if P idx then idx
    else iterScanFuel P size fuel (idx + 1)

/-- The scan loop with its sufficient fuel. -/
def iterScan (P : Nat → Bool) (size idx : Nat) : Nat :=
  iterScanFuel P size size idx

/-- iterator<Predicate>::operator++ from cursor index idx: none models the
fatal assert (incrementing an end cursor), otherwise the new cursor index is
the scan result from idx + 1. -/
def incCursor (P : Nat → Bool) (size idx : Nat) : Option Nat :=
  if idx = size then none else some (iterScan P size (idx + 1))

/-- iterator<Predicate>'s constructor with filterFirst (as used by begin()):
start at index 0 and, if the predicate rejects it, advance once. On an empty
container with a predicate rejecting index 0 the source's debug assert would
fire inside that advance; the total model returns the scan value, which the
traversal below treats as an exhausted cursor, matching the spec's empty-view
behaviour. -/
def beginIdx (P : Nat → Bool) (size : Nat) : Nat :=
  if P 0 then 0 else iterScan P size 1

/-- The range-for traversal of a view: collect the cursor indices visited
between begin and end. fuel = size + 1 suffices: each visited index is
strictly larger than the previous and visiting stops once size <= idx. -/
def visitFromFuel (P : Nat → Bool) (size : Nat) : Nat → Nat → List Nat
  | 0, _ => []
  | fuel + 1, idx =>
    if size ≤ idx then []
    else idx :: visitFromFuel P size fuel (iterScan P size (idx + 1))

/-- The cursor indices a view iterates over, in visiting order. -/
def viewIndices (P : Nat → Bool) (size : Nat) : List Nat :=
  visitFromFuel P size (size + 1) (beginIdx P size)

/-- iterinfo::reduce - the left fold of the range-for loop over the view:
reduced = f(move(reduced), d) for each visited cursor d, starting from the
given default. The callback receives the cursor index. -/
def reduceView {α : Type} (P : Nat → Bool) (size : Nat)
    (f : α → Nat → α) (dflt : α) : α :=
  List.foldl f dflt (viewIndices P size)

/-- ShortCircuitType enum from iodrivers.h. -/
inductive ShortCircuitType where
  | NO_SHORT_CIRCUIT : ShortCircuitType
  | DO_SHORT_CIRCUIT : ShortCircuitType
deriving DecidableEq, Repr

export ShortCircuitType (NO_SHORT_CIRCUIT DO_SHORT_CIRCUIT)

/-- iterinfo::any - reduce with the step
(shortCircuit == DO_SHORT_CIRCUIT) ? (reduced || f(d)) : (f(d) || reduced),
seeded with false. -/
def anyView (P : Nat → Bool) (size : Nat) (f : Nat → Bool)
    (shortCircuit : ShortCircuitType) : Bool :=
  reduceView P size
    (fun reduced i =>
      if shortCircuit = DO_SHORT_CIRCUIT then reduced || f i else f i || reduced)
    false

/-- iterinfo::all - reduce with the step
(shortCircuit == DO_SHORT_CIRCUIT) ? (reduced && f(d)) : (f(d) && reduced),
seeded with true. -/
def allView (P : Nat → Bool) (size : Nat) (f : Nat → Bool)
    (shortCircuit : ShortCircuitType) : Bool :=
  reduceView P size
    (fun reduced i =>
      if shortCircuit = DO_SHORT_CIRCUIT then reduced && f i else f i && reduced)
    true

/-- Instrumented any: alongside the boolean it records, in order, the cursor
indices on which the probe f is actually invoked. With DO_SHORT_CIRCUIT the
C++ step reduced || f(d) skips the call to f once reduced is true; with
NO_SHORT_CIRCUIT the step f(d) || reduced always invokes f. -/
def anyViewT (P : Nat → Bool) (size : Nat) (f : Nat → Bool) :
    ShortCircuitType → Bool × List Nat
  | DO_SHORT_CIRCUIT =>
    List.foldl (fun acc i => cond acc.1 (acc.1, acc.2) (acc.1 || f i, acc.2 ++ [i]))
      (false, []) (viewIndices P size)
  | NO_SHORT_CIRCUIT =>
    List.foldl (fun acc i => (f i || acc.1, acc.2 ++ [i]))
      (false, []) (viewIndices P size)

/-- Instrumented all, symmetric to anyViewT: with DO_SHORT_CIRCUIT the step
reduced && f(d) skips f once reduced is false. -/
def allViewT (P : Nat → Bool) (size : Nat) (f : Nat → Bool) :
    ShortCircuitType → Bool × List Nat
  | DO_SHORT_CIRCUIT =>
    List.foldl (fun acc i => cond acc.1 (acc.1 && f i, acc.2 ++ [i]) (acc.1, acc.2))
      (true, []) (viewIndices P size)
  | NO_SHORT_CIRCUIT =>
    List.foldl (fun acc i => (f i && acc.1, acc.2 ++ [i]))
      (true, []) (viewIndices P size)

/-- IODrivers::onIdleCpu(interval): iter().any(GenericOnIdleCpu(),
NO_SHORT_CIRCUIT, interval) - call every device's onIdleCpu handler over the
unfiltered view, OR the results without short-circuiting. -/
def onIdleCpu (ds : List Device) (interval : OnIdleCpuIntervalT) : Bool :=
  anyView NoPredicate ds.length
    (fun i => (devAt ds i).onIdleCpu interval) NO_SHORT_CIRCUIT

/-- The fold step of IODrivers::peekNextEvent: peek the device at cursor i;
it becomes the running best when the running best event is null OR the peeked
event is non-null with a strictly earlier time. -/
def peekStep (ds : List Device) (reduced : Nat × Event) (i : Nat) : Nat × Event :=
  let curEvt := peekAt ds i
  let isCurEvtSooner :=
    reduced.2.isNull || (!curEvt.isNull && Event.lt curEvt reduced.2)
  if isCurEvtSooner then (i, curEvt) else reduced

/-- IODrivers::peekNextEvent(): fold peekStep over the unfiltered view,
seeded with (end cursor, default OutputEvent). -/
def peekNextEvent (ds : List Device) : Nat × Event :=
  reduceView NoPredicate ds.length (peekStep ds) (ds.length, Event.nullEvent)

/-- The fans() / hotends() / heatedBeds() / servos() / endstops() view
predicates: the capability query of the device under the cursor. -/
def fansPred (ds : List Device) : Nat → Bool := predAt ds Device.isFan

/-- hotends() predicate. -/
def hotendsPred (ds : List Device) : Nat → Bool := predAt ds Device.isHotend

/-- heatedBeds() predicate. -/
def heatedBedsPred (ds : List Device) : Nat → Bool := predAt ds Device.isHeatedBed

/-- servos() predicate. -/
def servosPred (ds : List Device) : Nat → Bool := predAt ds Device.isServo

/-- endstops() predicate. -/
def endstopsPred (ds : List Device) : Nat → Bool := predAt ds Device.isEndstop

/-- IODrivers::heaters() = hotends().unionWith(heatedBeds()): the view whose
predicate is Union<GenericIsHotend, GenericIsHeatedBed>. -/
def heatersPred (ds : List Device) : Nat → Bool :=
  unionPred (hotendsPred ds) (heatedBedsPred ds)

/-- The peekNextEvent fold invariant: after folding over a set of visited
cursors, the accumulated event is null exactly when every visited peek is
null, and a non-null accumulated event is the peek of the recorded cursor and
is minimal in time among the visited non-null peeks. -/
def PeekInv (ds : List Device) (seen : List Nat) (acc : Nat × Event) : Prop :=
  (acc.2.isNull = true ↔ ∀ i ∈ seen, (peekAt ds i).isNull = true) ∧
  (acc.2.isNull = false →
    ∃ i ∈ seen, acc.1 = i ∧ acc.2 = peekAt ds i ∧
      ∀ j ∈ seen, (peekAt ds j).isNull = false → acc.2.time ≤ (peekAt ds j).time)

/-- Example device with a pending event at t = 5 on stepper 0. -/
def exDevA : Device :=
  ⟨false, false, false, false, false, false, ⟨5, 0, true⟩, fun _ => false⟩

/-- Example device with a pending event at t = 3 on stepper 1. -/
def exDevB : Device :=
  ⟨false, false, false, false, false, false, ⟨3, 1, true⟩, fun _ => false⟩

/-- An example device set with two pending events. -/
def exDs : List Device := [exDevA, exDevB]

/-!
Lemmas about the increment scan loop.
-/

lemma iterScanFuel_ge (P : Nat → Bool) (size : Nat) :
    ∀ fuel idx, idx ≤ iterScanFuel P size fuel idx := by
  intro fuel
  induction fuel with
  | zero => intro idx; simp [iterScanFuel]
  | succ n ih =>
    intro idx
    simp only [iterScanFuel]
    by_cases h1 : size ≤ idx
    · simp [h1]
    · simp only [if_neg h1]
      by_cases h2 : P idx = true
      · simp [h2]
      · simp only [if_neg h2]
        exact le_trans (Nat.le_succ idx) (ih (idx + 1))

lemma iterScanFuel_le (P : Nat → Bool) (size : Nat) :
    ∀ fuel idx, idx ≤ size → iterScanFuel P size fuel idx ≤ size := by
  intro fuel
  induction fuel with
  | zero => intro idx h; simpa [iterScanFuel] using h
  | succ n ih =>
    intro idx h
    simp only [iterScanFuel]
    by_cases h1 : size ≤ idx
    · simpa [h1] using h
    · simp only [if_neg h1]
      by_cases h2 : P idx = true
      · simpa [h2] using h
      · simp only [if_neg h2]
        exact ih (idx + 1) (by omega)

lemma iterScanFuel_valid (P : Nat → Bool) (size : Nat) :
    ∀ fuel idx, size ≤ idx + fuel → idx ≤ size →
      iterScanFuel P size fuel idx = size ∨ P (iterScanFuel P size fuel idx) = true := by
  intro fuel
  induction fuel with
  | zero =>
    intro idx h1 h2
    left
    simp only [iterScanFuel]
    omega
  | succ n ih =>
    intro idx h1 h2
    simp only [iterScanFuel]
    by_cases hend : size ≤ idx
    · left; simp [hend]; omega
    · simp only [if_neg hend]
      by_cases h2' : P idx = true
      · right; simp [h2']
      · simp only [if_neg h2']
        exact ih (idx + 1) (by omega) (by omega)

lemma iterScanFuel_skip (P : Nat → Bool) (size : Nat) :
    ∀ fuel idx j, idx ≤ j → j < iterScanFuel P size fuel idx → P j = false := by
  intro fuel
  induction fuel with
  | zero =>
    intro idx j h1 h2
    simp only [iterScanFuel] at h2
    omega
  | succ n ih =>
    intro idx j h1 h2
    simp only [iterScanFuel] at h2
    by_cases hend : size ≤ idx
    · simp [hend] at h2; omega
    · simp only [if_neg hend] at h2
      by_cases hP : P idx = true
      · simp [hP] at h2; omega
      · simp only [if_neg hP] at h2
        rcases Nat.eq_or_lt_of_le h1 with rfl | hlt
        · exact Bool.not_eq_true _ ▸ (by simpa using hP)
        · exact ih (idx + 1) j (by omega) h2

lemma iterScan_ge (P : Nat → Bool) (size idx : Nat) : idx ≤ iterScan P size idx :=
  iterScanFuel_ge P size size idx

lemma iterScan_le (P : Nat → Bool) (size idx : Nat) (h : idx ≤ size) :
    iterScan P size idx ≤ size :=
  iterScanFuel_le P size size idx h

lemma iterScan_valid (P : Nat → Bool) (size idx : Nat) (h : idx ≤ size) :
    iterScan P size idx = size ∨ P (iterScan P size idx) = true :=
  iterScanFuel_valid P size size idx (by omega) h

lemma iterScan_skip (P : Nat → Bool) (size idx j : Nat) (h1 : idx ≤ j)
    (h2 : j < iterScan P size idx) : P j = false :=
  iterScanFuel_skip P size size idx j h1 h2

/-- Filtering the index interval from a is the same as filtering it from the
scan result: all skipped indices fail the predicate. -/
lemma filter_range'_iterScan (P : Nat → Bool) (size a : Nat) (ha : a ≤ size) :
    List.filter P (List.range' a (size - a)) =
      List.filter P (List.range' (iterScan P size a) (size - iterScan P size a)) := by
  have hge : a ≤ iterScan P size a := iterScan_ge P size a
  have hle : iterScan P size a ≤ size := iterScan_le P size a ha
  have hsplit : List.range' a (iterScan P size a - a) ++
      List.range' (iterScan P size a) (size - iterScan P size a) =
      List.range' a (size - a) := by
    have h := List.range'_append a (iterScan P size a - a) (size - iterScan P size a) 1
    rw [show a + 1 * (iterScan P size a - a) = iterScan P size a from by omega] at h
    rw [show size - iterScan P size a + (iterScan P size a - a) = size - a from by omega] at h
    exact h
  rw [← hsplit, List.filter_append]
  have hnil : List.filter P (List.range' a (iterScan P size a - a)) = [] := by
    rw [List.filter_eq_nil_iff]
    intro j hj
    rw [List.mem_range'_1] at hj
    have := iterScan_skip P size a j hj.1 (by omega)
    simp [this]
  rw [hnil, List.nil_append]

/-- The traversal starting from a valid cursor (the end sentinel or an index
the predicate accepts) visits exactly the accepted indices of [idx, size), in
ascending order. -/
lemma visitFromFuel_eq (P : Nat → Bool) (size : Nat) :
    ∀ fuel idx, size ≤ idx + fuel → (idx = size ∨ P idx = true) → idx ≤ size →
      visitFromFuel P size fuel idx = List.filter P (List.range' idx (size - idx)) := by
  intro fuel
  induction fuel with
  | zero =>
    intro idx h1 _ h3
    have : idx = size := by omega
    subst this
    simp [visitFromFuel]
  | succ n ih =>
    intro idx h1 hvalid h3
    simp only [visitFromFuel]
    by_cases hend : size ≤ idx
    · have : idx = size := by omega
      subst this
      simp
    · simp only [if_neg hend]
      have hP : P idx = true := by
        rcases hvalid with h | h
        · omega
        · exact h
      have hge : idx + 1 ≤ iterScan P size (idx + 1) := iterScan_ge P size (idx + 1)
      have hle : iterScan P size (idx + 1) ≤ size := iterScan_le P size (idx + 1) (by omega)
      have hvalid2 : iterScan P size (idx + 1) = size ∨ P (iterScan P size (idx + 1)) = true :=
        iterScan_valid P size (idx + 1) (by omega)
      rw [ih (iterScan P size (idx + 1)) (by omega) hvalid2 hle]
      rw [show size - idx = (size - (idx + 1)) + 1 from by omega, List.range'_succ]
      rw [List.filter_cons, if_pos hP]
      rw [← filter_range'_iterScan P size (idx + 1) (by omega)]

/-- The view traversal visits exactly the indices of [0, size) accepted by
its predicate, in ascending order. -/
lemma viewIndices_eq (P : Nat → Bool) (size : Nat) :
    viewIndices P size = List.filter P (List.range size) := by
  unfold viewIndices beginIdx
  by_cases h0 : P 0 = true
  · rw [if_pos h0]
    rw [visitFromFuel_eq P size (size + 1) 0 (by omega) (Or.inr h0) (Nat.zero_le _)]
    rw [List.range_eq_range']
    simp
  · rw [if_neg h0]
    by_cases hsz : size = 0
    · subst hsz
      simp [iterScan, iterScanFuel, visitFromFuel]
    · have h1 : 1 ≤ size := by omega
      have hge : 1 ≤ iterScan P size 1 := iterScan_ge P size 1
      have hle : iterScan P size 1 ≤ size := iterScan_le P size 1 h1
      have hvalid : iterScan P size 1 = size ∨ P (iterScan P size 1) = true :=
        iterScan_valid P size 1 h1
      rw [visitFromFuel_eq P size (size + 1) (iterScan P size 1) (by omega) hvalid hle]
      rw [List.range_eq_range']
      have hr : List.range' 0 size = 0 :: List.range' 1 (size - 1) := by
        have h := List.range'_succ 0 (size - 1) 1
        rw [show size - 1 + 1 = size from by omega] at h
        simpa using h
      rw [hr, List.filter_cons, if_neg h0]
      rw [← filter_range'_iterScan P size 1 h1]

/-- The unfiltered view (NoPredicate, as produced by iter()) visits every
index of the container in ascending order. -/
lemma viewIndices_noPred (size : Nat) :
    viewIndices NoPredicate size = List.range size := by
  rw [viewIndices_eq]
  simp [NoPredicate]

/-- Views never visit an index twice. -/
lemma viewIndices_nodup (P : Nat → Bool) (size : Nat) : (viewIndices P size).Nodup := by
  rw [viewIndices_eq]
  exact (List.nodup_range size).filter P

/-!
Fold characterisations of any / all in both short-circuit modes.
-/

lemma foldl_or_nsc (f : Nat → Bool) :
    ∀ (l : List Nat) (b : Bool), List.foldl (fun r i => f i || r) b l = (l.any f || b) := by
  intro l
  induction l with
  | nil => intro b; simp
  | cons a t ih =>
    intro b
    simp only [List.foldl_cons, List.any_cons, ih]
    cases f a <;> cases t.any f <;> cases b <;> rfl

lemma foldl_or_sc (f : Nat → Bool) :
    ∀ (l : List Nat) (b : Bool), List.foldl (fun r i => r || f i) b l = (b || l.any f) := by
  intro l
  induction l with
  | nil => intro b; simp
  | cons a t ih =>
    intro b
    simp only [List.foldl_cons, List.any_cons, ih]
    cases f a <;> cases t.any f <;> cases b <;> rfl

lemma foldl_and_nsc (f : Nat → Bool) :
    ∀ (l : List Nat) (b : Bool), List.foldl (fun r i => f i && r) b l = (l.all f && b) := by
  intro l
  induction l with
  | nil => intro b; simp
  | cons a t ih =>
    intro b
    simp only [List.foldl_cons, List.all_cons, ih]
    cases f a <;> cases t.all f <;> cases b <;> rfl

lemma foldl_and_sc (f : Nat → Bool) :
    ∀ (l : List Nat) (b : Bool), List.foldl (fun r i => r && f i) b l = (b && l.all f) := by
  intro l
  induction l with
  | nil => intro b; simp
  | cons a t ih =>
    intro b
    simp only [List.foldl_cons, List.all_cons, ih]
    cases f a <;> cases t.all f <;> cases b <;> rfl

lemma ite_sc_do {α : Type} (a b : α) :
    (if DO_SHORT_CIRCUIT = DO_SHORT_CIRCUIT then a else b) = a := if_pos rfl

lemma ite_sc_no {α : Type} (a b : α) :
    (if NO_SHORT_CIRCUIT = DO_SHORT_CIRCUIT then a else b) = b := if_neg (by decide)

/-- Both modes of any produce the disjunction of f over the visited cursors. -/
lemma anyView_eq_any (P : Nat → Bool) (size : Nat) (f : Nat → Bool)
    (sc : ShortCircuitType) : anyView P size f sc = (viewIndices P size).any f := by
  unfold anyView reduceView
  cases sc with
  | NO_SHORT_CIRCUIT =>
    simp only [ite_sc_no]
    rw [foldl_or_nsc]
    simp
  | DO_SHORT_CIRCUIT =>
    have hstep : (fun (reduced : Bool) (i : Nat) =>
        if DO_SHORT_CIRCUIT = DO_SHORT_CIRCUIT then reduced || f i else f i || reduced) =
        fun (reduced : Bool) (i : Nat) => reduced || f i := by
      funext r i
      exact if_pos rfl
    rw [hstep, foldl_or_sc]
    simp

/-- Both modes of all produce the conjunction of f over the visited cursors. -/
lemma allView_eq_all (P : Nat → Bool) (size : Nat) (f : Nat → Bool)
    (sc : ShortCircuitType) : allView P size f sc = (viewIndices P size).all f := by
  unfold allView reduceView
  cases sc with
  | NO_SHORT_CIRCUIT =>
    simp only [ite_sc_no]
    rw [foldl_and_nsc]
    simp
  | DO_SHORT_CIRCUIT =>
    have hstep : (fun (reduced : Bool) (i : Nat) =>
        if DO_SHORT_CIRCUIT = DO_SHORT_CIRCUIT then reduced && f i else f i && reduced) =
        fun (reduced : Bool) (i : Nat) => reduced && f i := by
      funext r i
      exact if_pos rfl
    rw [hstep, foldl_and_sc]
    simp

/-- Without short-circuiting, the instrumented any invokes f on every visited
cursor, in order, and its boolean agrees with the plain fold. -/
lemma anyViewT_nsc_fold (f : Nat → Bool) :
    ∀ (l : List Nat) (b : Bool) (log : List Nat),
      List.foldl (fun (acc : Bool × List Nat) i => (f i || acc.1, acc.2 ++ [i])) (b, log) l =
        (List.foldl (fun r i => f i || r) b l, log ++ l) := by
  intro l
  induction l with
  | nil => intro b log; simp
  | cons a t ih =>
    intro b log
    simp only [List.foldl_cons, ih]
    simp

/-- Once the short-circuited any has seen a true, nothing further is invoked
and the state is frozen. -/
lemma anyViewT_sc_frozen (f : Nat → Bool) :
    ∀ (l : List Nat) (log : List Nat),
      List.foldl (fun (acc : Bool × List Nat) i =>
        cond acc.1 (acc.1, acc.2) (acc.1 || f i, acc.2 ++ [i])) (true, log) l =
        (true, log) := by
  intro l
  induction l with
  | nil => intro log; rfl
  | cons a t ih =>
    intro log
    simp only [List.foldl_cons]
    exact ih log

/-- Unfolding one step of the short-circuited any from a false accumulator:
f is invoked and logged. -/
lemma anyViewT_sc_step (f : Nat → Bool) (a : Nat) (t : List Nat) (log : List Nat) :
    List.foldl (fun (acc : Bool × List Nat) i =>
        cond acc.1 (acc.1, acc.2) (acc.1 || f i, acc.2 ++ [i])) (false, log) (a :: t) =
      List.foldl (fun (acc : Bool × List Nat) i =>
        cond acc.1 (acc.1, acc.2) (acc.1 || f i, acc.2 ++ [i])) (f a, log ++ [a]) t := rfl

/-- The short-circuited any computes the disjunction, and the cursors it
invokes f on form a sublist of the visited cursors. -/
lemma anyViewT_sc_fold (f : Nat → Bool) :
    ∀ (l : List Nat) (log : List Nat),
      ∃ t, List.foldl (fun (acc : Bool × List Nat) i =>
          cond acc.1 (acc.1, acc.2) (acc.1 || f i, acc.2 ++ [i])) (false, log) l =
        (l.any f, log ++ t) ∧ t.Sublist l := by
  intro l
  induction l with
  | nil => intro log; exact ⟨[], by simp, List.nil_sublist []⟩
  | cons a t ih =>
    intro log
    rw [anyViewT_sc_step]
    by_cases ha : f a = true
    · refine ⟨[a], ?_, (List.nil_sublist t).cons₂ a⟩
      rw [ha, anyViewT_sc_frozen f t (log ++ [a])]
      simp [ha]
    · have ha' : f a = false := by simpa using ha
      obtain ⟨t', ht', hsub⟩ := ih (log ++ [a])
      rw [ha', ht']
      exact ⟨a :: t', by simp [ha'], hsub.cons₂ a⟩

/-- Without short-circuiting, the instrumented all invokes f on every visited
cursor, in order. -/
lemma allViewT_nsc_fold (f : Nat → Bool) :
    ∀ (l : List Nat) (b : Bool) (log : List Nat),
      List.foldl (fun (acc : Bool × List Nat) i => (f i && acc.1, acc.2 ++ [i])) (b, log) l =
        (List.foldl (fun r i => f i && r) b l, log ++ l) := by
  intro l
  induction l with
  | nil => intro b log; simp
  | cons a t ih =>
    intro b log
    simp only [List.foldl_cons, ih]
    simp

/-- Once the short-circuited all has seen a false, nothing further is invoked
and the state is frozen. -/
lemma allViewT_sc_frozen (f : Nat → Bool) :
    ∀ (l : List Nat) (log : List Nat),
      List.foldl (fun (acc : Bool × List Nat) i =>
        cond acc.1 (acc.1 && f i, acc.2 ++ [i]) (acc.1, acc.2)) (false, log) l =
        (false, log) := by
  intro l
  induction l with
  | nil => intro log; rfl
  | cons a t ih =>
    intro log
    simp only [List.foldl_cons]
    exact ih log

/-- Unfolding one step of the short-circuited all from a true accumulator:
f is invoked and logged. -/
lemma allViewT_sc_step (f : Nat → Bool) (a : Nat) (t : List Nat) (log : List Nat) :
    List.foldl (fun (acc : Bool × List Nat) i =>
        cond acc.1 (acc.1 && f i, acc.2 ++ [i]) (acc.1, acc.2)) (true, log) (a :: t) =
      List.foldl (fun (acc : Bool × List Nat) i =>
        cond acc.1 (acc.1 && f i, acc.2 ++ [i]) (acc.1, acc.2)) (f a, log ++ [a]) t := rfl

/-- The short-circuited all computes the conjunction, and the cursors it
invokes f on form a sublist of the visited cursors. -/
lemma allViewT_sc_fold (f : Nat → Bool) :
    ∀ (l : List Nat) (log : List Nat),
      ∃ t, List.foldl (fun (acc : Bool × List Nat) i =>
          cond acc.1 (acc.1 && f i, acc.2 ++ [i]) (acc.1, acc.2)) (true, log) l =
        (l.all f, log ++ t) ∧ t.Sublist l := by
  intro l
  induction l with
  | nil => intro log; exact ⟨[], by simp, List.nil_sublist []⟩
  | cons a t ih =>
    intro log
    rw [allViewT_sc_step]
    by_cases ha : f a = true
    · obtain ⟨t', ht', hsub⟩ := ih (log ++ [a])
      rw [ha, ht']
      exact ⟨a :: t', by simp [ha], hsub.cons₂ a⟩
    · have ha' : f a = false := by simpa using ha
      refine ⟨[a], ?_, (List.nil_sublist t).cons₂ a⟩
      rw [ha', allViewT_sc_frozen f t (log ++ [a])]
      simp [ha']

lemma peekInv_init (ds : List Device) (c : Nat) : PeekInv ds [] (c, Event.nullEvent) := by
  constructor
  · simp [Event.nullEvent, Event.isNull, Event.stepperId]
  · intro h
    simp [Event.nullEvent, Event.isNull, Event.stepperId] at h

lemma peekInv_step (ds : List Device) (seen : List Nat) (acc : Nat × Event) (i : Nat)
    (hinv : PeekInv ds seen acc) : PeekInv ds (seen ++ [i]) (peekStep ds acc i) := by
  obtain ⟨hnull, hmin⟩ := hinv
  unfold peekStep
  by_cases hc : (acc.2.isNull || (!(peekAt ds i).isNull && Event.lt (peekAt ds i) acc.2)) = true
  · simp only [hc, if_pos]
    rcases Bool.or_eq_true_iff.mp hc with haccnull | hcur
    · -- the running best is null: every visited peek so far is null
      have hall : ∀ j ∈ seen, (peekAt ds j).isNull = true := hnull.mp haccnull
      constructor
      · constructor
        · intro hi j hj
          rcases List.mem_append.mp hj with hj | hj
          · exact hall j hj
          · rw [List.mem_singleton.mp hj]; exact hi
        · intro h
          exact h i (List.mem_append.mpr (Or.inr (List.mem_singleton.mpr rfl)))
      · intro hcurnn
        refine ⟨i, List.mem_append.mpr (Or.inr (List.mem_singleton.mpr rfl)), rfl, rfl, ?_⟩
        intro j hj hjnn
        rcases List.mem_append.mp hj with hj | hj
        · exact absurd (hall j hj) (by simp [hjnn])
        · rw [List.mem_singleton.mp hj] at hjnn ⊢
    · -- the current peek is non-null and strictly earlier than the best
      have hcurnn : (peekAt ds i).isNull = false := by
        have := (Bool.and_eq_true_iff.mp hcur).1
        simpa using this
      have hlt : (peekAt ds i).time < acc.2.time := by
        have := (Bool.and_eq_true_iff.mp hcur).2
        simpa [Event.lt] using this
      constructor
      · constructor
        · intro hi
          rw [hi] at hcurnn; cases hcurnn
        · intro h
          exact absurd (h i (List.mem_append.mpr (Or.inr (List.mem_singleton.mpr rfl))))
            (by simp [hcurnn])
      · intro _
        refine ⟨i, List.mem_append.mpr (Or.inr (List.mem_singleton.mpr rfl)), rfl, rfl, ?_⟩
        intro j hj hjnn
        rcases List.mem_append.mp hj with hj | hj
        · -- j already visited: if the best was null so was j; else best is minimal
          by_cases haccnull : acc.2.isNull = true
          · exact absurd (hnull.mp haccnull j hj) (by simp [hjnn])
          · have haccnn : acc.2.isNull = false := by simpa using haccnull
            obtain ⟨i0, _, _, _, hle⟩ := hmin haccnn
            exact le_of_lt (lt_of_lt_of_le hlt (hle j hj hjnn))
        · rw [List.mem_singleton.mp hj]
  · simp only [hc, if_neg, Bool.false_eq_true, not_false_eq_true]
    -- the accumulator is kept: it is non-null and not beaten by the current peek
    have hcf : (acc.2.isNull || (!(peekAt ds i).isNull && Event.lt (peekAt ds i) acc.2)) = false := by
      simpa using hc
    have haccnn : acc.2.isNull = false := (Bool.or_eq_false_iff.mp hcf).1
    have hrest : (!(peekAt ds i).isNull && Event.lt (peekAt ds i) acc.2) = false :=
      (Bool.or_eq_false_iff.mp hcf).2
    constructor
    · constructor
      · intro hi
        rw [hi] at haccnn; cases haccnn
      · intro h
        have : ∀ j ∈ seen, (peekAt ds j).isNull = true := fun j hj =>
          h j (List.mem_append.mpr (Or.inl hj))
        rw [hnull.mpr this] at haccnn; cases haccnn
    · intro _
      obtain ⟨i0, hi0, hfst, hsnd, hle⟩ := hmin haccnn
      refine ⟨i0, List.mem_append.mpr (Or.inl hi0), hfst, hsnd, ?_⟩
      intro j hj hjnn
      rcases List.mem_append.mp hj with hj | hj
      · exact hle j hj hjnn
      · rw [List.mem_singleton.mp hj] at hjnn ⊢
        rcases Bool.and_eq_false_iff.mp hrest with h1 | h2
        · exact absurd hjnn (by simpa using h1)
        · have : ¬ ((peekAt ds i).time < acc.2.time) := by
            simpa [Event.lt] using h2
          exact le_of_not_lt this

lemma peekInv_foldl (ds : List Device) :
    ∀ (l : List Nat) (seen : List Nat) (acc : Nat × Event), PeekInv ds seen acc →
      PeekInv ds (seen ++ l) (List.foldl (peekStep ds) acc l) := by
  intro l
  induction l with
  | nil => intro seen acc h; simpa using h
  | cons a t ih =>
    intro seen acc h
    rw [List.foldl_cons, List.append_cons]
    exact ih (seen ++ [a]) (peekStep ds acc a) (peekInv_step ds seen acc a h)

/-- The top-level invariant instantiated at peekNextEvent. -/
lemma peekNextEvent_inv (ds : List Device) :
    PeekInv ds (List.range ds.length) (peekNextEvent ds) := by
  unfold peekNextEvent reduceView
  rw [viewIndices_noPred]
  have h := peekInv_foldl ds (List.range ds.length) [] (ds.length, Event.nullEvent)
    (peekInv_init ds ds.length)
  simpa using h

/-- When every peek is null, each fold step unconditionally replaces the (null)
running best, so the final accumulator names the last visited cursor. -/
lemma peek_foldl_allNull (ds : List Device) :
    ∀ (l : List Nat) (acc : Nat × Event), acc.2.isNull = true →
      (∀ i ∈ l, (peekAt ds i).isNull = true) →
      List.foldl (peekStep ds) acc l =
        (match l.getLast? with
          | none => acc
          | some j => (j, peekAt ds j)) := by
  intro l
  induction l with
  | nil => intro acc _ _; rfl
  | cons a t ih =>
    intro acc haccnull hall
    rw [List.foldl_cons]
    have hstep : peekStep ds acc a = (a, peekAt ds a) := by
      unfold peekStep
      simp [haccnull]
    rw [hstep]
    have hanull : (peekAt ds a).isNull = true := hall a (List.mem_cons_self a t)
    have ht : ∀ i ∈ t, (peekAt ds i).isNull = true := fun i hi =>
      hall i (List.mem_cons_of_mem a hi)
    cases t with
    | nil => rfl
    | cons b t2 =>
      rw [ih (a, peekAt ds a) (by simpa using hanull) ht]
      rw [List.getLast?_cons_cons]
      cases hlast : (b :: t2).getLast? with
      | none => exact absurd hlast (by simp)
      | some j => rfl

/-- Without short-circuiting, any invokes f on exactly the visited cursors in
order and returns the same boolean as the plain combinator. -/
lemma anyViewT_nsc_spec (P : Nat → Bool) (size : Nat) (f : Nat → Bool) :
    anyViewT P size f NO_SHORT_CIRCUIT =
      (anyView P size f NO_SHORT_CIRCUIT, viewIndices P size) := by
  simp only [anyViewT]
  rw [anyViewT_nsc_fold]
  unfold anyView reduceView
  simp only [ite_sc_no]
  simp

/-- Without short-circuiting, all invokes f on exactly the visited cursors in
order and returns the same boolean as the plain combinator. -/
lemma allViewT_nsc_spec (P : Nat → Bool) (size : Nat) (f : Nat → Bool) :
    allViewT P size f NO_SHORT_CIRCUIT =
      (allView P size f NO_SHORT_CIRCUIT, viewIndices P size) := by
  simp only [allViewT]
  rw [allViewT_nsc_fold]
  unfold allView reduceView
  simp only [ite_sc_no]
  simp

/-- With short-circuiting, any returns the same boolean and invokes f only on
a sublist of the visited cursors. -/
lemma anyViewT_sc_spec (P : Nat → Bool) (size : Nat) (f : Nat → Bool) :
    (anyViewT P size f DO_SHORT_CIRCUIT).1 = anyView P size f DO_SHORT_CIRCUIT ∧
    (anyViewT P size f DO_SHORT_CIRCUIT).2.Sublist (viewIndices P size) := by
  obtain ⟨t, ht, hsub⟩ := anyViewT_sc_fold f (viewIndices P size) []
  simp only [anyViewT]
  rw [ht, anyView_eq_any]
  exact ⟨rfl, by simpa using hsub⟩

/-- With short-circuiting, all returns the same boolean and invokes f only on
a sublist of the visited cursors. -/
lemma allViewT_sc_spec (P : Nat → Bool) (size : Nat) (f : Nat → Bool) :
    (allViewT P size f DO_SHORT_CIRCUIT).1 = allView P size f DO_SHORT_CIRCUIT ∧
    (allViewT P size f DO_SHORT_CIRCUIT).2.Sublist (viewIndices P size) := by
  obtain ⟨t, ht, hsub⟩ := allViewT_sc_fold f (viewIndices P size) []
  simp only [allViewT]
  rw [ht, allView_eq_all]
  exact ⟨rfl, by simpa using hsub⟩

/-!
Claim theorems.
-/

/-- C1: for every device set, peekNextEvent returns a cursor/event pair whose
event is null exactly when every device's peeked event is null, and whose
event otherwise is the peeked event of the returned cursor's device and has
minimal scheduled time among all non-null peeked events. -/
theorem C1_peekNextEvent_minimum (ds : List Device) :
    ((peekNextEvent ds).2.isNull = true ↔
      ∀ i, i < ds.length → (peekAt ds i).isNull = true) ∧
    ((peekNextEvent ds).2.isNull = false →
      ∃ i, i < ds.length ∧ (peekNextEvent ds).1 = i ∧
        (peekNextEvent ds).2 = peekAt ds i ∧
        ∀ j, j < ds.length → (peekAt ds j).isNull = false →
          (peekNextEvent ds).2.time ≤ (peekAt ds j).time) := by
  obtain ⟨h1, h2⟩ := peekNextEvent_inv ds
  constructor
  · constructor
    · intro hn i hi
      exact h1.mp hn i (List.mem_range.mpr hi)
    · intro hall
      exact h1.mpr fun i hi => hall i (List.mem_range.mp hi)
  · intro hnn
    obtain ⟨i, hi, hfst, hsnd, hle⟩ := h2 hnn
    exact ⟨i, List.mem_range.mp hi, hfst, hsnd,
      fun j hj hjnn => hle j (List.mem_range.mpr hj) hjnn⟩

/-- C1 witness: on the two-device example set the returned event is non-null
and is the minimal pending event. -/
theorem C1_witness :
    (peekNextEvent exDs).2.isNull = false ∧
    (∃ i, i < exDs.length ∧ (peekNextEvent exDs).1 = i ∧
      (peekNextEvent exDs).2 = peekAt exDs i ∧
      ∀ j, j < exDs.length → (peekAt exDs j).isNull = false →
        (peekNextEvent exDs).2.time ≤ (peekAt exDs j).time) :=
  ⟨by decide, (C1_peekNextEvent_minimum exDs).2 (by decide)⟩

/-- C2 counterexample: over the one-device set whose sole peek is null, the
claim says peekNextEvent returns the end cursor (index 1), but the code
returns the cursor of that device (index 0), because a null peek does replace
a null running best. -/
theorem C2_counterexample :
    ¬ ((peekNextEvent [defDevice]).1 = ([defDevice] : List Device).length) := by
  decide

/-- C2 amended: when every device's peeked event is null, peekNextEvent
returns a null event, and (for a non-empty set) the cursor of the LAST device
rather than the end cursor: a null peek replaces the running best exactly
when the running best is itself null, so the pair is overwritten at every
step. -/
theorem C2_allNull_lastCursor (ds : List Device) (hne : 0 < ds.length)
    (hall : ∀ i, i < ds.length → (peekAt ds i).isNull = true) :
    peekNextEvent ds = (ds.length - 1, peekAt ds (ds.length - 1)) ∧
    (peekNextEvent ds).2.isNull = true := by
  unfold peekNextEvent reduceView
  rw [viewIndices_noPred]
  rw [peek_foldl_allNull ds (List.range ds.length) (ds.length, Event.nullEvent)
    rfl (fun i hi => hall i (List.mem_range.mp hi))]
  cases hn : ds.length with
  | zero => omega
  | succ m =>
    rw [List.range_succ, List.getLast?_concat]
    constructor
    · simp
    · simpa using hall m (by omega)

/-- C2 witness: on the one-device all-null set the result is cursor 0 with
that device's null peek. -/
theorem C2_witness :
    peekNextEvent [defDevice] = (0, peekAt [defDevice] 0) ∧
    (peekNextEvent [defDevice]).2.isNull = true := by
  have h := C2_allNull_lastCursor [defDevice] (by decide) (by decide)
  simpa using h

/-- C3: onIdleCpu invokes the idle handler of every device (the invocation
trace of its non-short-circuited any is exactly the full index range) and
returns true iff at least one device's handler returned true. -/
theorem C3_onIdleCpu_visits_all (ds : List Device) (interval : OnIdleCpuIntervalT) :
    (onIdleCpu ds interval = true ↔ ∃ d ∈ ds, d.onIdleCpu interval = true) ∧
    (anyViewT NoPredicate ds.length (fun i => (devAt ds i).onIdleCpu interval)
        NO_SHORT_CIRCUIT).2 = List.range ds.length := by
  constructor
  · unfold onIdleCpu
    rw [anyView_eq_any, viewIndices_noPred, List.any_eq_true]
    constructor
    · rintro ⟨i, hi, hf⟩
      have hi2 := List.mem_range.mp hi
      have hd : devAt ds i = ds[i] := List.getD_eq_getElem ds defDevice hi2
      exact ⟨ds[i], List.getElem_mem hi2, hd ▸ hf⟩
    · rintro ⟨d, hd, hf⟩
      obtain ⟨i, hi, hieq⟩ := List.mem_iff_getElem.mp hd
      refine ⟨i, List.mem_range.mpr hi, ?_⟩
      have hd2 : devAt ds i = ds[i] := List.getD_eq_getElem ds defDevice hi
      rw [hd2, hieq]
      exact hf
  · rw [anyViewT_nsc_spec, viewIndices_noPred]

/-- C4: with short-circuiting disabled, any and all invoke the probe on every
visited cursor exactly once (the invocation trace is the duplicate-free visit
list) and return the OR resp. AND of the individual results; with
short-circuiting enabled they return the same boolean while invoking the
probe only on a sublist of the visited cursors. -/
theorem C4_any_all_short_circuit (P : Nat → Bool) (size : Nat) (f : Nat → Bool) :
    (anyViewT P size f NO_SHORT_CIRCUIT =
      (anyView P size f NO_SHORT_CIRCUIT, viewIndices P size)) ∧
    (allViewT P size f NO_SHORT_CIRCUIT =
      (allView P size f NO_SHORT_CIRCUIT, viewIndices P size)) ∧
    (viewIndices P size).Nodup ∧
    (anyView P size f NO_SHORT_CIRCUIT = (viewIndices P size).any f) ∧
    (allView P size f NO_SHORT_CIRCUIT = (viewIndices P size).all f) ∧
    (anyView P size f DO_SHORT_CIRCUIT = anyView P size f NO_SHORT_CIRCUIT) ∧
    (allView P size f DO_SHORT_CIRCUIT = allView P size f NO_SHORT_CIRCUIT) ∧
    ((anyViewT P size f DO_SHORT_CIRCUIT).1 = anyView P size f DO_SHORT_CIRCUIT) ∧
    ((anyViewT P size f DO_SHORT_CIRCUIT).2.Sublist (viewIndices P size)) ∧
    ((allViewT P size f DO_SHORT_CIRCUIT).1 = allView P size f DO_SHORT_CIRCUIT) ∧
    ((allViewT P size f DO_SHORT_CIRCUIT).2.Sublist (viewIndices P size)) :=
  ⟨anyViewT_nsc_spec P size f, allViewT_nsc_spec P size f, viewIndices_nodup P size,
    anyView_eq_any P size f NO_SHORT_CIRCUIT, allView_eq_all P size f NO_SHORT_CIRCUIT,
    (anyView_eq_any P size f DO_SHORT_CIRCUIT).trans
      (anyView_eq_any P size f NO_SHORT_CIRCUIT).symm,
    (allView_eq_all P size f DO_SHORT_CIRCUIT).trans
      (allView_eq_all P size f NO_SHORT_CIRCUIT).symm,
    (anyViewT_sc_spec P size f).1, (anyViewT_sc_spec P size f).2,
    (allViewT_sc_spec P size f).1, (allViewT_sc_spec P size f).2⟩

/-- C5: reduce is the left fold over the matching indices in ascending order;
it returns the initial value unchanged on an empty view and f(initial, d0) on
a singleton view. -/
theorem C5_reduce_fold {α : Type} (P : Nat → Bool) (size : Nat)
    (f : α → Nat → α) (init : α) :
    (reduceView P size f init = List.foldl f init ((List.range size).filter P)) ∧
    ((∀ i, i < size → P i = false) → reduceView P size f init = init) ∧
    (∀ i0, (List.range size).filter P = [i0] →
      reduceView P size f init = f init i0) := by
  refine ⟨?_, ?_, ?_⟩
  · unfold reduceView
    rw [viewIndices_eq]
  · intro h
    unfold reduceView
    rw [viewIndices_eq]
    rw [List.filter_eq_nil_iff.mpr fun a ha => by simp [h a (List.mem_range.mp ha)]]
    rfl
  · intro i0 h
    unfold reduceView
    rw [viewIndices_eq, h]
    rfl

/-- C5 witness: a singleton view folds once; an empty view returns the
initial accumulator. -/
theorem C5_witness :
    reduceView (fun i => i == 1) 3 (fun (a : Nat) (i : Nat) => a + i) 5 = 5 + 1 ∧
    reduceView (fun _ => false) 3 (fun (a : Nat) (i : Nat) => a + i) 5 = 5 :=
  ⟨(C5_reduce_fold (fun i => i == 1) 3 (fun a i => a + i) 5).2.2 1 (by decide),
    (C5_reduce_fold (fun _ => false) 3 (fun a i => a + i) 5).2.1 (fun i _ => rfl)⟩

/-- C6: predicate union is commutative at the level of selected device
indices, and heaters() selects exactly the set-union of the hotend and
heated-bed indices. -/
theorem C6_union_commutative (A B : Nat → Bool) (size : Nat) (ds : List Device) :
    (viewIndices (unionPred A B) size = viewIndices (unionPred B A) size) ∧
    (∀ i, i ∈ viewIndices (heatersPred ds) ds.length ↔
      (i ∈ viewIndices (hotendsPred ds) ds.length ∨
        i ∈ viewIndices (heatedBedsPred ds) ds.length)) := by
  constructor
  · rw [viewIndices_eq, viewIndices_eq]
    exact List.filter_congr fun x _ => by simp [unionPred, Bool.or_comm]
  · intro i
    rw [viewIndices_eq, viewIndices_eq, viewIndices_eq]
    simp only [List.mem_filter, heatersPred, unionPred, Bool.or_eq_true]
    tauto

/-- C7: offsetting an event by a duration adds the duration to its scheduled
time and changes neither its device index nor its direction. -/
theorem C7_offset_frame (e : Event) (d : Int) :
    (e.offset d).time = e.time + d ∧
    (e.offset d).stepperId = e.stepperId ∧
    (e.offset d).direction = e.direction :=
  ⟨rfl, rfl, rfl⟩

/-- C8: the ordering operators compare strictly by scheduled time; the device
index and direction fields play no role, and the concrete event at t=1.000s
compares less than the event at t=1.5s on a different device (nanosecond
ticks). -/
theorem C8_ordering_time_only (e1 e2 : Event) :
    (Event.lt e1 e2 = true ↔ e1.time < e2.time) ∧
    (Event.gt e1 e2 = true ↔ e2.time < e1.time) ∧
    (∀ (s1 : Nat) (d1 : Bool) (s2 : Nat) (d2 : Bool),
      Event.lt ⟨e1.mTime, s1, d1⟩ ⟨e2.mTime, s2, d2⟩ = Event.lt e1 e2 ∧
      Event.gt ⟨e1.mTime, s1, d1⟩ ⟨e2.mTime, s2, d2⟩ = Event.gt e1 e2) ∧
    Event.lt (Event.mkEvent 1000000000 0 StepDirection.StepForward)
      (Event.mkEvent 1500000000 1 StepDirection.StepBackward) = true := by
  refine ⟨?_, ?_, ?_, ?_⟩
  · simp [Event.lt]
  · simp [Event.gt]
  · intro s1 d1 s2 d2
    exact ⟨rfl, rfl⟩
  · decide

/-- C9: incrementing the end cursor is the fatal assertion (modelled as
none); incrementing any cursor strictly below the container size never
asserts and yields an index in the half-open-above range (old index, size]. -/
theorem C9_increment_assert (P : Nat → Bool) (size idx : Nat) :
    (incCursor P size size = none) ∧
    (idx < size → ∃ j, incCursor P size idx = some j ∧ idx < j ∧ j ≤ size) := by
  constructor
  · unfold incCursor
    simp
  · intro h
    refine ⟨iterScan P size (idx + 1), ?_, ?_, ?_⟩
    · unfold incCursor
      rw [if_neg (by omega)]
    · exact lt_of_lt_of_le (Nat.lt_succ_self idx) (iterScan_ge P size (idx + 1))
    · exact iterScan_le P size (idx + 1) (by omega)

/-- C9 witness: a legal increment from index 1 of a 4-slot container lands
strictly above 1 and at most at the end sentinel. -/
theorem C9_witness :
    ∃ j, incCursor (fun i => i == 2) 4 1 = some j ∧ 1 < j ∧ j ≤ 4 :=
  (C9_increment_assert (fun i => i == 2) 4 1).2 (by decide)

/-- C10: over a view whose predicate matches no device, any returns false and
all returns true in both short-circuit modes, and the probe is never invoked
(the invocation traces are empty). -/
theorem C10_empty_view_vacuous (P : Nat → Bool) (size : Nat) (f : Nat → Bool)
    (h : ∀ i, i < size → P i = false) :
    anyViewT P size f NO_SHORT_CIRCUIT = (false, []) ∧
    anyViewT P size f DO_SHORT_CIRCUIT = (false, []) ∧
    allViewT P size f NO_SHORT_CIRCUIT = (true, []) ∧
    allViewT P size f DO_SHORT_CIRCUIT = (true, []) ∧
    anyView P size f NO_SHORT_CIRCUIT = false ∧
    anyView P size f DO_SHORT_CIRCUIT = false ∧
    allView P size f NO_SHORT_CIRCUIT = true ∧
    allView P size f DO_SHORT_CIRCUIT = true := by
  have hempty : viewIndices P size = [] := by
    rw [viewIndices_eq]
    exact List.filter_eq_nil_iff.mpr fun a ha => by simp [h a (List.mem_range.mp ha)]
  refine ⟨?_, ?_, ?_, ?_, ?_, ?_, ?_, ?_⟩ <;>
    simp [anyViewT, allViewT, anyView, allView, reduceView, hempty]

/-- C10 witness: with a predicate rejecting both slots of a two-slot
container, the short-circuited combinators return their units with empty
invocation traces. -/
theorem C10_witness :
    anyViewT (fun _ => false) 2 (fun _ => true) DO_SHORT_CIRCUIT = (false, []) ∧
    allViewT (fun _ => false) 2 (fun _ => true) DO_SHORT_CIRCUIT = (true, []) := by
  have h := C10_empty_view_vacuous (fun _ => false) 2 (fun _ => true) (fun i _ => rfl)
  exact ⟨h.2.1, h.2.2.2.1⟩

end Printipi
